import Mathlib

/-!
Verification development for the shenidam audio-alignment engine
(src/shenidam.c).

Modelling conventions (shallow embedding):
* C `float`/`double` sample values are modelled by exact rationals `ℚ`
  (and by `ℝ` where the semantics of the libm `sqrt` matters); machine
  rounding is out of scope, algorithmic structure is modelled exactly.
* The external collaborators (the FFTW transform provider, the
  libsamplerate resampler `src_simple`, and the libm `sqrt`) are
  parameters of the model, bundled in a `Collaborators` record: the C
  code treats them as opaque capabilities.
* Fallible C functions returning `int` codes become functions into
  `Except ResultCode _` or `ResultCode × _`; the session struct
  `shenidam_t_impl` becomes `ShenidamState`.
* The format tags of shenidam.h (not part of src/) are modelled by the
  inductive `AudioFormat`; an unrecognized tag is modelled as `none`.
* `size_t`/`int` loop arithmetic is modelled on `ℕ`/`ℤ`; truncated
  `size_t` subtraction matches `ℕ` subtraction at the single use site
  (the wraparound threshold), where no underflow can occur.
-/

namespace Shenidam

/-- Complex spectral bin (fftwf_complex), modelled as a pair of rationals. -/
abbrev Cpx := ℚ × ℚ

/-- Error/result codes of shenidam.h (values immaterial, modelled as an inductive). -/
inductive ResultCode
  | success
  | invalidArgument
  | alreadySetBaseSignal
  | baseSignalNotSet
  | allocationError
deriving DecidableEq

/-- The seven recognized sample-format tags of shenidam.h.  The tag values
themselves live in the header (not under src/); only their identity matters. -/
inductive AudioFormat
  | byte
  | short
  | int32
  | long
  | longLong
  | double
  | single
deriving DecidableEq

/-- DBL_MAX of float.h: (2 - 2^-52) * 2^1023, as an exact rational. -/
def DBL_MAX : ℚ := (2 - (1/2) ^ (52 : ℕ)) * 2 ^ (1023 : ℕ)

/-- C99 `round`: round half away from zero (used at src/shenidam.c lines
365, 464, 465). -/
def c_round (x : ℚ) : ℤ :=
  if x < 0 then -Int.floor (-x + 1/2) else Int.floor (x + 1/2)

/-- `convert_to_samples` (src/shenidam.c lines 205-229): each recognized
format converts `num_samples` leading elements element-wise to float
(a value-preserving cast in the exact model; FORMAT_SINGLE is a direct
copy); the default case frees the buffer and reports failure. -/
def convert_to_samples (format : Option AudioFormat) (samples_in : List ℚ)
    (num_samples : ℕ) : Except Unit (List ℚ) :=
  match format with
  | some .single => .ok (samples_in.take num_samples)
  | some .byte => .ok (samples_in.take num_samples)
  | some .short => .ok (samples_in.take num_samples)
  | some .int32 => .ok (samples_in.take num_samples)
  | some .long => .ok (samples_in.take num_samples)
  | some .longLong => .ok (samples_in.take num_samples)
  | some .double => .ok (samples_in.take num_samples)
  | none => .error ()

/-- `normalize` (src/shenidam.c lines 109-137), parametric in the libm
`sqrt` collaborator.  Note the code accumulates `var` as the plain sum of
squares and then takes `sqrt(var - mean*mean)` without dividing by the
sample count. -/
def normalize {α : Type} [LinearOrderedField α] (sqrt : α → α)
    (samples : List α) : List α :=
  let num_samples_d : α := (samples.length : α)
  let mean := samples.sum / num_samples_d
  let var := sqrt ((samples.map (fun x => x * x)).sum - mean * mean)
  if var = 0 then samples.map (fun x => x - mean)
  else samples.map (fun x => (x - mean) / var)

/-- Modelled from the spec: "Subtracts the mean from every element;
additionally divides by the standard deviation unless it is exactly zero,
in which case only centering is applied."  The standard deviation is
`sqrt` of (mean of squares minus squared mean).  This definition follows
the words of the specification, for comparison against `normalize`. -/
def normalize_spec {α : Type} [LinearOrderedField α] (sqrt : α → α)
    (samples : List α) : List α :=
  let n : α := (samples.length : α)
  let mean := samples.sum / n
  let sd := sqrt ((samples.map (fun x => x * x)).sum / n - mean * mean)
  if sd = 0 then samples.map (fun x => x - mean)
  else samples.map (fun x => (x - mean) / sd)

/-- `resize` (src/shenidam.c lines 186-193): zero-filled buffer of
`num_samples_out` samples, with the first `min` samples copied over. -/
def resize (samples_in : List ℚ) (num_samples_in num_samples_out : ℕ) : List ℚ :=
  samples_in.take (min num_samples_out num_samples_in) ++
    List.replicate (num_samples_out - min num_samples_out num_samples_in) 0

/-- The doubling loop of `get_common_size` (src/shenidam.c lines 284-292),
written with explicit fuel: starting from `res = 1` the loop doubles at
most `log2` times, so `minimal_size` units of fuel always suffice
(established by `get_common_size_spec` below). -/
def get_common_size_go (minimal_size : ℕ) : ℕ → ℕ → ℕ
  | 0, res => res
  | fuel + 1, res =>
    if res < minimal_size then get_common_size_go minimal_size fuel (res * 2)
    else res

/-- `get_common_size` (src/shenidam.c lines 284-292). -/
def get_common_size (minimal_size : ℕ) : ℕ :=
  get_common_size_go minimal_size minimal_size 1

/-- The peak-search loop of `shenidam_get_audio_range`
(src/shenidam.c lines 449-459): running maximum `maxv`, current index `i`,
best index `best` (called `in` in the C code); a new best requires a
strictly greater value. -/
def find_peak_go : List ℚ → ℚ → ℕ → ℕ → ℕ × ℚ
  | [], maxv, _, best => (best, maxv)
  | temp :: rest, maxv, i, best =>
    if maxv < temp then find_peak_go rest temp (i + 1) i
    else find_peak_go rest maxv (i + 1) best

/-- Peak search over the whole convolved buffer, starting from
`maxv = -DBL_MAX`, `in = 0` (src/shenidam.c lines 449-459). -/
def find_peak (convolved : List ℚ) : ℕ × ℚ :=
  find_peak_go convolved (-DBL_MAX) 0 0

/-- `conjf` on a spectral bin. -/
def conj_c (z : Cpx) : Cpx := (z.1, -z.2)

/-- Complex multiplication on spectral bins. -/
def cmul_c (x y : Cpx) : Cpx :=
  (x.1 * y.1 - x.2 * y.2, x.1 * y.2 + x.2 * y.1)

/-- Cross-power spectrum loop (src/shenidam.c lines 441-445):
`track_f[i] = conjf(track_f[i]) * base_f[i]` for `i < common_size_f`. -/
def cross_power (track_f base_f : List Cpx) (common_size_f : ℕ) : List Cpx :=
  List.zipWith (fun x y => cmul_c (conj_c x) y)
    (track_f.take common_size_f) (base_f.take common_size_f)

/-- External collaborators of the engine, specified only at their
interface: libm `sqrt`; `src_simple` of libsamplerate (input samples,
rate ratio, requested output count → produced samples); the FFTW
forward/backward real transforms (signal, length, thread-count hint). -/
structure Collaborators where
  sqrt : ℚ → ℚ
  resample : List ℚ → ℚ → ℕ → List ℚ
  fft : List ℚ → ℕ → ℤ → List Cpx
  ifft : List Cpx → ℕ → ℤ → List ℚ

/-- The session struct `shenidam_t_impl` (src/shenidam.c lines 48-57).
`base_sample_rate` is the working rate fixed at creation;
`base_real_sample_rate` is the caller-supplied original base rate;
`base = none` models the NULL pointer before commit.  Filter entries are
modelled with their context baked in (spectrum, bin count → spectrum). -/
structure ShenidamState where
  base_sample_rate : ℚ
  base_real_sample_rate : ℚ
  base : Option (List ℚ)
  base_num_samples : ℕ
  frequential_filters : List (List Cpx → ℕ → List Cpx)
  num_threads : ℤ

/-- The intermediate quantities of one successful `shenidam_get_audio_range`
call (src/shenidam.c lines 407-466): the query's working-rate sample count,
the padded correlation length, the raw peak index, the wraparound-corrected
index, and the two outputs. -/
structure QueryTrace where
  num_samples_working : ℕ
  common_size : ℕ
  peak : ℕ
  in_corrected : ℤ
  in_point : ℤ
  out_length : ℕ
deriving DecidableEq

/-- Lines 408-417 of src/shenidam.c: if the working/caller rate ratio is
not 1, resample the (already normalized) query to the working rate with
output count hint `ceil(num_samples * ratio)` and record the produced
count; otherwise keep the query and its count. -/
def query_working_track (C : Collaborators) (impl : ShenidamState)
    (track1 : List ℚ) (num_samples : ℕ) (sample_rate : ℚ) : List ℚ × ℕ :=
  let ratio := impl.base_sample_rate / sample_rate
  if ratio ≠ 1 then
    let out := C.resample track1 ratio (Int.ceil ((num_samples : ℚ) * ratio)).toNat
    (out, out.length)
  else (track1, num_samples)

/-- Lines 419-448 of src/shenidam.c: pad both signals to the common
power-of-two size, transform, run the filter chain on each spectrum
independently, cross-power multiply and inverse transform. -/
def query_convolved (C : Collaborators) (impl : ShenidamState)
    (base0 track2 : List ℚ) (ns2 : ℕ) : List ℚ :=
  let common_size := get_common_size (ns2 + impl.base_num_samples)
  let common_size_f := common_size / 2 + 1
  let track3 := resize track2 ns2 common_size
  let base1 := resize base0 impl.base_num_samples common_size
  let track_f := C.fft track3 common_size impl.num_threads
  let base_f := C.fft base1 common_size impl.num_threads
  let track_f2 := impl.frequential_filters.foldl
    (fun sp f => f sp common_size_f) track_f
  let base_f2 := impl.frequential_filters.foldl
    (fun sp f => f sp common_size_f) base_f
  C.ifft (cross_power track_f2 base_f2 common_size_f) common_size impl.num_threads

/-- The success path of `shenidam_get_audio_range` (src/shenidam.c lines
407-466), after the argument checks and format conversion have passed:
normalize, optionally resample to the working rate, correlate
(`query_convolved`), search the peak, apply the wraparound correction,
and rescale both outputs to the original base rate. -/
def query_core (C : Collaborators) (impl : ShenidamState)
    (base0 track0 : List ℚ) (num_samples : ℕ) (sample_rate : ℚ) : QueryTrace :=
  let track1 := normalize C.sqrt track0
  let p2 := query_working_track C impl track1 num_samples sample_rate
  let ns2 := p2.2
  let common_size := get_common_size (ns2 + impl.base_num_samples)
  let convolved := query_convolved C impl base0 p2.1 ns2
  let peak := (find_peak convolved).1
  let in_corrected : ℤ :=
    if common_size - ns2 / 2 < peak then (peak : ℤ) - (common_size : ℤ)
    else (peak : ℤ)
  ⟨ns2, common_size, peak, in_corrected,
    c_round ((in_corrected : ℚ) * impl.base_real_sample_rate / impl.base_sample_rate),
    (c_round ((ns2 : ℚ) * impl.base_real_sample_rate / impl.base_sample_rate)).toNat⟩

/-- `shenidam_get_audio_range` (src/shenidam.c lines 376-468) with its
intermediate quantities exposed: the guard structure is exactly that of
the C code (base committed, `sample_rate <= 0`, `num_samples == 0`,
format conversion), and the success value is `query_core`.  The C
function performs no write to the session, so the model reads the state
and returns none. -/
def shenidam_get_audio_range_trace (C : Collaborators) (impl : ShenidamState)
    (input_format : Option AudioFormat) (samples : List ℚ) (num_samples : ℕ)
    (sample_rate : ℚ) : Except ResultCode QueryTrace :=
  match impl.base with
  | none => .error .baseSignalNotSet
  | some base0 =>
    if sample_rate ≤ 0 then .error .invalidArgument
    else if num_samples = 0 then .error .invalidArgument
    else
      match convert_to_samples input_format samples num_samples with
      | .error _ => .error .invalidArgument
      | .ok track0 => .ok (query_core C impl base0 track0 num_samples sample_rate)

/-- The caller-visible result of `shenidam_get_audio_range`:
`(*in_point, *length)` on success. -/
def shenidam_get_audio_range (C : Collaborators) (impl : ShenidamState)
    (input_format : Option AudioFormat) (samples : List ℚ) (num_samples : ℕ)
    (sample_rate : ℚ) : Except ResultCode (ℤ × ℕ) :=
  (shenidam_get_audio_range_trace C impl input_format samples num_samples
    sample_rate).map (fun t => (t.in_point, t.out_length))

/-- `shenidam_set_base_audio` (src/shenidam.c lines 347-374): reject a
second commit, convert, normalize, resample to the working rate with
output count hint `round(num_samples * base_sample_rate / sample_rate)`,
and commit buffer, count and original rate.  Note: the code contains no
check of `sample_rate`.  (`resample_parallel` reduces to the serial
`resample` here: `omp_get_num_threads()` is 1 outside a parallel
region.) -/
def shenidam_set_base_audio (C : Collaborators) (impl : ShenidamState)
    (format : Option AudioFormat) (samples : List ℚ) (num_samples : ℕ)
    (sample_rate : ℚ) : ResultCode × ShenidamState :=
  match impl.base with
  | some _ => (.alreadySetBaseSignal, impl)
  | none =>
    match convert_to_samples format samples num_samples with
    | .error _ => (.invalidArgument, impl)
    | .ok base1 =>
      let base2 := normalize C.sqrt base1
      let hint := (c_round ((num_samples : ℚ) * impl.base_sample_rate / sample_rate)).toNat
      let out := C.resample base2 (impl.base_sample_rate / sample_rate) hint
      (.success,
        ⟨impl.base_sample_rate, sample_rate, some out, out.length,
          impl.frequential_filters, impl.num_threads⟩)

/-- The input partition of `resample_parallel` (src/shenidam.c lines
256-262): `num_threads` contiguous chunks of `slice_size = n / num_threads`
samples each, the last chunk taking all remaining samples. -/
def parallel_input_slices (samples_in : List ℚ) (num_threads : ℕ) : List (List ℚ) :=
  let slice_size := samples_in.length / num_threads
  (List.range num_threads).map (fun i =>
    if i = num_threads - 1 then samples_in.drop (i * slice_size)
    else (samples_in.drop (i * slice_size)).take slice_size)

/-- The per-chunk resampling and in-order concatenation that
`resample_parallel` intends (src/shenidam.c lines 258-277; the gather
loop of line 275 intends to copy `buffers[i]`). -/
def resample_parallel_intended (rs : List ℚ → ℚ → List ℚ) (samples_in : List ℚ)
    (num_threads : ℕ) (ratio : ℚ) : List ℚ :=
  ((parallel_input_slices samples_in num_threads).map (fun c => rs c ratio)).flatten

/-- The loop condition of the filter-count scan in
`shenidam_add_frequential_filter` (src/shenidam.c line 336), as written:
`(cur++) != NULL` tests the iterator pointer itself, not the loaded
element `*cur`.  Addresses are modelled as naturals with NULL = 0. -/
def filter_scan_test (cur : ℕ) : Bool := decide (cur ≠ 0)

/-- Concrete collaborators for evaluating the model: identity `sqrt`
stand-in, identity resampler, zero spectra, inverse transform with the
peak at index 0. -/
def testC : Collaborators :=
  ⟨fun x => x, fun l _ _ => l,
    fun _ n _ => List.replicate (n / 2 + 1) (0, 0),
    fun _ n _ => (List.range n).map (fun i => if i = 0 then 1 else 0)⟩

/-- Concrete collaborators whose inverse transform peaks at the last
index, exercising the wraparound correction. -/
def testC2 : Collaborators :=
  ⟨fun x => x, fun l _ _ => l,
    fun _ n _ => List.replicate (n / 2 + 1) (0, 0),
    fun _ n _ => (List.range n).map (fun i => if i + 1 = n then 1 else 0)⟩

/-- A session with a committed two-sample base, working rate 1, original
base rate 1, no filters. -/
def testS : ShenidamState := ⟨1, 1, some [1, 1], 2, [], 1⟩

/-- A session whose working rate (10) is far above the original base
rate (1). -/
def testS9 : ShenidamState := ⟨10, 1, some [1, 1], 2, [], 1⟩

/-- A freshly created session: no base committed. -/
def emptyS : ShenidamState := ⟨1, 0, none, 0, [], 1⟩

/-! ### Helper lemmas about `get_common_size` -/

lemma get_common_size_go_spec (m : ℕ) : ∀ fuel res, 0 < res → m ≤ res * 2 ^ fuel →
    (∃ k, get_common_size_go m fuel res = res * 2 ^ k) ∧
    m ≤ get_common_size_go m fuel res ∧
    ∀ j, m ≤ res * 2 ^ j → get_common_size_go m fuel res ≤ res * 2 ^ j := by
  intro fuel
  induction fuel with
  | zero =>
    intro res hres hm
    simp only [get_common_size_go]
    simp only [pow_zero, mul_one] at hm
    refine ⟨⟨0, by simp⟩, hm, ?_⟩
    intro j _
    have h1 : (1 : ℕ) ≤ 2 ^ j := Nat.one_le_two_pow
    calc res = res * 1 := (mul_one res).symm
    _ ≤ res * 2 ^ j := Nat.mul_le_mul_left res h1
  | succ fuel ih =>
    intro res hres hm
    by_cases h : res < m
    · simp only [get_common_size_go, if_pos h]
      have h2 : m ≤ res * 2 * 2 ^ fuel := by
        calc m ≤ res * 2 ^ (fuel + 1) := hm
        _ = res * 2 * 2 ^ fuel := by ring
      obtain ⟨⟨k, hek⟩, hle, hmin⟩ := ih (res * 2) (by omega) h2
      refine ⟨⟨k + 1, by rw [hek]; ring⟩, hle, ?_⟩
      intro j hj
      match j with
      | 0 => simp only [pow_zero, mul_one] at hj; omega
      | j + 1 =>
        have hj2 : m ≤ res * 2 * 2 ^ j := by
          calc m ≤ res * 2 ^ (j + 1) := hj
          _ = res * 2 * 2 ^ j := by ring
        calc get_common_size_go m fuel (res * 2) ≤ res * 2 * 2 ^ j := hmin j hj2
        _ = res * 2 ^ (j + 1) := by ring
    · simp only [get_common_size_go, if_neg h]
      refine ⟨⟨0, by simp⟩, by omega, ?_⟩
      intro j _
      have h1 : (1 : ℕ) ≤ 2 ^ j := Nat.one_le_two_pow
      calc res = res * 1 := (mul_one res).symm
      _ ≤ res * 2 ^ j := Nat.mul_le_mul_left res h1

lemma get_common_size_go_pos (m : ℕ) : ∀ fuel res, 0 < res →
    0 < get_common_size_go m fuel res := by
  intro fuel
  induction fuel with
  | zero => intro res hres; simpa [get_common_size_go] using hres
  | succ fuel ih =>
    intro res hres
    by_cases h : res < m
    · simp only [get_common_size_go, if_pos h]
      exact ih (res * 2) (by omega)
    · simpa [get_common_size_go, if_neg h] using hres

lemma get_common_size_pos (m : ℕ) : 0 < get_common_size m :=
  get_common_size_go_pos m m 1 one_pos

lemma get_common_size_spec (n : ℕ) (_hn : 0 < n) :
    (∃ k, get_common_size n = 2 ^ k) ∧ n ≤ get_common_size n ∧
    ∀ j, n ≤ 2 ^ j → get_common_size n ≤ 2 ^ j := by
  have hfuel : n ≤ 1 * 2 ^ n := by
    simpa using (Nat.lt_two_pow n).le
  obtain ⟨⟨k, hek⟩, hle, hmin⟩ := get_common_size_go_spec n n 1 one_pos hfuel
  exact ⟨⟨k, by simpa using hek⟩, hle, fun j hj => by simpa using hmin j (by simpa using hj)⟩

/-! ### Helper lemmas about the peak-search loop -/

lemma find_peak_go_snd (l : List ℚ) : ∀ (m : ℚ) (i b : ℕ),
    (find_peak_go l m i b).2 = l.foldl max m := by
  induction l with
  | nil => intro m i b; rfl
  | cons t rest ih =>
    intro m i b
    by_cases h : m < t
    · rw [show find_peak_go (t :: rest) m i b = find_peak_go rest t (i + 1) i from
        by simp [find_peak_go, h], ih, List.foldl_cons, max_eq_right h.le]
    · rw [show find_peak_go (t :: rest) m i b = find_peak_go rest m (i + 1) b from
        by simp [find_peak_go, h], ih, List.foldl_cons, max_eq_left (not_lt.1 h)]

lemma foldl_max_eq_of_le (l : List ℚ) : ∀ m : ℚ, (∀ x ∈ l, x ≤ m) →
    l.foldl max m = m := by
  induction l with
  | nil => intro m _; rfl
  | cons t rest ih =>
    intro m h
    rw [List.foldl_cons, max_eq_left (h t (by simp))]
    exact ih m (fun x hx => h x (by simp [hx]))

lemma le_foldl_max_init (l : List ℚ) : ∀ m : ℚ, m ≤ l.foldl max m := by
  induction l with
  | nil => intro m; exact le_refl m
  | cons t rest ih =>
    intro m
    calc m ≤ max m t := le_max_left m t
    _ ≤ rest.foldl max (max m t) := ih (max m t)
    _ = (t :: rest).foldl max m := by rw [List.foldl_cons]

lemma le_foldl_max_of_mem (l : List ℚ) : ∀ (m x : ℚ), x ∈ l → x ≤ l.foldl max m := by
  induction l with
  | nil => intro m x hx; cases hx
  | cons t rest ih =>
    intro m x hx
    rw [List.foldl_cons]
    rcases List.mem_cons.1 hx with h | h
    · subst h
      calc x ≤ max m x := le_max_right m x
      _ ≤ rest.foldl max (max m x) := le_foldl_max_init rest (max m x)
    · exact ih (max m t) x h

lemma find_peak_go_fst_of_le (l : List ℚ) : ∀ (m : ℚ) (i b : ℕ),
    (∀ x ∈ l, x ≤ m) → (find_peak_go l m i b).1 = b := by
  induction l with
  | nil => intro m i b _; rfl
  | cons t rest ih =>
    intro m i b h
    have ht : ¬ m < t := not_lt.2 (h t (by simp))
    rw [show find_peak_go (t :: rest) m i b = find_peak_go rest m (i + 1) b from
      by simp [find_peak_go, ht]]
    exact ih m (i + 1) b (fun x hx => h x (by simp [hx]))

lemma find_peak_go_fst_bound (l : List ℚ) : ∀ (m : ℚ) (i b : ℕ),
    (find_peak_go l m i b).1 = b ∨
    (i ≤ (find_peak_go l m i b).1 ∧ (find_peak_go l m i b).1 < i + l.length) := by
  induction l with
  | nil => intro m i b; exact Or.inl rfl
  | cons t rest ih =>
    intro m i b
    by_cases h : m < t
    · rw [show find_peak_go (t :: rest) m i b = find_peak_go rest t (i + 1) i from
        by simp [find_peak_go, h]]
      rcases ih t (i + 1) i with h1 | ⟨h1, h2⟩
      · right
        rw [h1]
        simp
      · right
        constructor
        · omega
        · simp only [List.length_cons]
          omega
    · rw [show find_peak_go (t :: rest) m i b = find_peak_go rest m (i + 1) b from
        by simp [find_peak_go, h]]
      rcases ih m (i + 1) b with h1 | ⟨h1, h2⟩
      · exact Or.inl h1
      · right
        constructor
        · omega
        · simp only [List.length_cons]
          omega

lemma find_peak_fst_lt_length (l : List ℚ) (h : l ≠ []) :
    (find_peak l).1 < l.length := by
  have hlen : 0 < l.length := List.length_pos.2 h
  rcases find_peak_go_fst_bound l (-DBL_MAX) 0 0 with h1 | ⟨_, h2⟩
  · rw [find_peak, h1]; exact hlen
  · simpa [find_peak] using h2

lemma find_peak_go_argmax (l : List ℚ) : ∀ (m : ℚ) (i b : ℕ), (∃ x ∈ l, m < x) →
    ∃ j, ∃ hj : j < l.length, (find_peak_go l m i b).1 = i + j ∧
      m < l.get ⟨j, hj⟩ ∧ l.get ⟨j, hj⟩ = (find_peak_go l m i b).2 ∧
      ∀ k, ∀ hk : k < j, l.get ⟨k, lt_trans hk hj⟩ < l.get ⟨j, hj⟩ := by
  induction l with
  | nil => intro m i b h; simp at h
  | cons t rest ih =>
    intro m i b hex
    by_cases h : m < t
    · rw [show find_peak_go (t :: rest) m i b = find_peak_go rest t (i + 1) i from
        by simp [find_peak_go, h]]
      by_cases h2 : ∃ y ∈ rest, t < y
      · obtain ⟨j, hj, he, hgt, hval, hfirst⟩ := ih t (i + 1) i h2
        refine ⟨j + 1, by simpa using Nat.succ_lt_succ hj, by rw [he]; omega,
          lt_trans h hgt, hval, ?_⟩
        intro k hk
        match k with
        | 0 => exact hgt
        | k + 1 => exact hfirst k (by omega)
      · push_neg at h2
        refine ⟨0, by simp, ?_, h, ?_, ?_⟩
        · rw [find_peak_go_fst_of_le rest t (i + 1) i h2]
          omega
        · rw [find_peak_go_snd, foldl_max_eq_of_le rest t h2]
          rfl
        · intro k hk
          omega
    · have ht : t ≤ m := not_lt.1 h
      rw [show find_peak_go (t :: rest) m i b = find_peak_go rest m (i + 1) b from
        by simp [find_peak_go, h]]
      have hex2 : ∃ y ∈ rest, m < y := by
        obtain ⟨x, hx, hmx⟩ := hex
        rcases List.mem_cons.1 hx with h3 | h3
        · subst h3; exact absurd hmx h
        · exact ⟨x, h3, hmx⟩
      obtain ⟨j, hj, he, hgt, hval, hfirst⟩ := ih m (i + 1) b hex2
      refine ⟨j + 1, by simpa using Nat.succ_lt_succ hj, by rw [he]; omega, hgt, hval, ?_⟩
      intro k hk
      match k with
      | 0 => exact lt_of_le_of_lt ht hgt
      | k + 1 => exact hfirst k (by omega)

/-- If the inverse-transform collaborator honours its interface (it
returns a real sequence of the requested length), the convolved buffer
scanned by the peak search has exactly the common padded length. -/
lemma query_convolved_length (C : Collaborators) (impl : ShenidamState)
    (base0 track2 : List ℚ) (ns2 : ℕ)
    (hifft : ∀ f L th, (C.ifft f L th).length = L) :
    (query_convolved C impl base0 track2 ns2).length =
      get_common_size (ns2 + impl.base_num_samples) := by
  unfold query_convolved
  exact hifft _ _ _

/-! ### Helper lemmas about `c_round` -/

lemma c_round_of_nonneg (x : ℚ) (hx : 0 ≤ x) : c_round x = Int.floor (x + 1/2) :=
  if_neg (not_lt.2 hx)

lemma c_round_nonneg (x : ℚ) (hx : 0 ≤ x) : 0 ≤ c_round x := by
  rw [c_round_of_nonneg x hx]
  exact Int.floor_nonneg.2 (by linarith)

/-- Round-trip tolerance of the final rescaling: if the original base
rate is at least half the working rate, then the rescaled length
`c_round (q * o / w)`, converted back to the working rate, differs from
`q` by at most 1. -/
lemma c_round_back_tolerance (q : ℕ) (o w : ℚ) (hr : 1/2 ≤ o / w) :
    |(c_round (((c_round ((q : ℚ) * o / w)).toNat : ℚ) * w / o) : ℚ) - (q : ℚ)| ≤ 1 := by
  have hr0 : 0 < o / w := lt_of_lt_of_le (by norm_num) hr
  have hw : w ≠ 0 := by
    intro h0
    rw [h0, div_zero] at hr0
    exact lt_irrefl 0 hr0
  have ho : o ≠ 0 := by
    intro h0
    rw [h0, zero_div] at hr0
    exact lt_irrefl 0 hr0
  have harg : (q : ℚ) * o / w = (q : ℚ) * (o / w) := mul_div_assoc (q : ℚ) o w
  have hqr : 0 ≤ (q : ℚ) * (o / w) := mul_nonneg (Nat.cast_nonneg q) hr0.le
  have hLfloor : c_round ((q : ℚ) * o / w) = Int.floor ((q : ℚ) * (o / w) + 1/2) := by
    rw [harg]
    exact c_round_of_nonneg _ hqr
  have hL0 : 0 ≤ c_round ((q : ℚ) * o / w) := by
    rw [harg]
    exact c_round_nonneg _ hqr
  set L := c_round ((q : ℚ) * o / w) with hLdef
  have hcast : ((L.toNat : ℕ) : ℚ) = (L : ℚ) := by
    exact_mod_cast congrArg (fun z : ℤ => (z : ℚ)) (Int.toNat_of_nonneg hL0)
  have hub : (L : ℚ) ≤ (q : ℚ) * (o / w) + 1/2 := by
    rw [hLfloor]
    exact Int.floor_le _
  have hlb : (q : ℚ) * (o / w) - 1/2 < (L : ℚ) := by
    rw [hLfloor]
    have h := Int.sub_one_lt_floor ((q : ℚ) * (o / w) + 1/2)
    push_cast at h ⊢
    linarith
  have hwo : w / o = (o / w)⁻¹ := (inv_div o w).symm
  have harg2 : ((L.toNat : ℕ) : ℚ) * w / o = (L : ℚ) / (o / w) := by
    rw [hcast, mul_div_assoc, hwo]
    exact (div_eq_mul_inv _ _).symm
  have hup : (L : ℚ) / (o / w) ≤ (q : ℚ) + 1 := by
    rw [div_le_iff₀ hr0]
    have : ((q : ℚ) + 1) * (o / w) = (q : ℚ) * (o / w) + (o / w) := by ring
    rw [this]
    linarith
  have hdn : (q : ℚ) - 1 ≤ (L : ℚ) / (o / w) := by
    rw [le_div_iff₀ hr0]
    have : ((q : ℚ) - 1) * (o / w) = (q : ℚ) * (o / w) - (o / w) := by ring
    rw [this]
    linarith
  have hargnn : 0 ≤ (L : ℚ) / (o / w) := by
    apply div_nonneg _ hr0.le
    exact_mod_cast hL0
  have hR : c_round (((L.toNat : ℕ) : ℚ) * w / o) = Int.floor ((L : ℚ) / (o / w) + 1/2) := by
    rw [harg2]
    exact c_round_of_nonneg _ hargnn
  have h32 : Int.floor ((3 : ℚ)/2) = 1 := by
    rw [Int.floor_eq_iff]
    norm_num
  have hm12 : Int.floor ((-1 : ℚ)/2) = -1 := by
    rw [Int.floor_eq_iff]
    norm_num
  have hceil32 : Int.floor ((q : ℚ) + 3/2) = (q : ℤ) + 1 := by
    rw [show (q : ℚ) + 3/2 = (3 : ℚ)/2 + ((q : ℤ) : ℚ) by push_cast; ring,
      Int.floor_add_int, h32]
    omega
  have hfl12 : Int.floor ((q : ℚ) - 1/2) = (q : ℤ) - 1 := by
    rw [show (q : ℚ) - 1/2 = (-1 : ℚ)/2 + ((q : ℤ) : ℚ) by push_cast; ring,
      Int.floor_add_int, hm12]
    omega
  have hRub : c_round (((L.toNat : ℕ) : ℚ) * w / o) ≤ (q : ℤ) + 1 := by
    rw [hR, ← hceil32]
    exact Int.floor_le_floor (by linarith)
  have hRlb : (q : ℤ) - 1 ≤ c_round (((L.toNat : ℕ) : ℚ) * w / o) := by
    rw [hR, ← hfl12]
    exact Int.floor_le_floor (by linarith)
  rw [abs_le]
  constructor
  · have h1 : (((q : ℤ) - 1 : ℤ) : ℚ) ≤ (c_round (((L.toNat : ℕ) : ℚ) * w / o) : ℚ) :=
      Int.cast_le.2 hRlb
    push_cast at h1
    linarith
  · have h1 : ((c_round (((L.toNat : ℕ) : ℚ) * w / o) : ℤ) : ℚ) ≤ (((q : ℤ) + 1 : ℤ) : ℚ) :=
      Int.cast_le.2 hRub
    push_cast at h1
    linarith

/-! ### Inversion of the query guards -/

lemma trace_ok_inv {C : Collaborators} {impl : ShenidamState}
    {fmt : Option AudioFormat} {s : List ℚ} {n : ℕ} {rate : ℚ} {t : QueryTrace}
    (h : shenidam_get_audio_range_trace C impl fmt s n rate = .ok t) :
    ∃ base0 track0, impl.base = some base0 ∧
      convert_to_samples fmt s n = .ok track0 ∧ ¬ rate ≤ 0 ∧ n ≠ 0 ∧
      t = query_core C impl base0 track0 n rate := by
  unfold shenidam_get_audio_range_trace at h
  split at h
  · exact absurd h (by simp)
  · rename_i base0 hb
    split at h
    · exact absurd h (by simp)
    · rename_i h1
      split at h
      · exact absurd h (by simp)
      · rename_i h2
        split at h
        · exact absurd h (by simp)
        · rename_i track0 hc
          exact ⟨base0, track0, hb, hc, h1, h2, (Except.ok.inj h).symm⟩

/-! ### Concrete evaluations of the model -/

lemma run_tail_peak : shenidam_get_audio_range_trace testC2 testS (some .single)
    [1, 1, -1, -1] 4 1 = .ok ⟨4, 8, 7, -1, -1, 4⟩ := by
  norm_num [shenidam_get_audio_range_trace, convert_to_samples, query_core,
    query_working_track, query_convolved, normalize, resize, get_common_size,
    get_common_size_go, find_peak, find_peak_go, cross_power, conj_c, cmul_c,
    c_round, DBL_MAX, testC2, testS, List.range_succ]
  all_goals rfl

lemma run_low_rate : shenidam_get_audio_range_trace testC testS9 (some .single)
    [1, 1, -1, -1] 4 10 = .ok ⟨4, 8, 0, 0, 0, 0⟩ := by
  norm_num [shenidam_get_audio_range_trace, convert_to_samples, query_core,
    query_working_track, query_convolved, normalize, resize, get_common_size,
    get_common_size_go, find_peak, find_peak_go, cross_power, conj_c, cmul_c,
    c_round, DBL_MAX, testC, testS9, List.range_succ]

lemma run_basic : shenidam_get_audio_range_trace testC testS (some .single)
    [1, 1] 2 1 = .ok ⟨2, 4, 0, 0, 0, 2⟩ := by
  norm_num [shenidam_get_audio_range_trace, convert_to_samples, query_core,
    query_working_track, query_convolved, normalize, resize, get_common_size,
    get_common_size_go, find_peak, find_peak_go, cross_power, conj_c, cmul_c,
    c_round, DBL_MAX, testC, testS, List.range_succ]
  all_goals rfl

lemma testC2_ifft_length : ∀ (f : List Cpx) (L : ℕ) (th : ℤ),
    (testC2.ifft f L th).length = L := by
  intro f L th
  simp [testC2]

/-! ### The input partition of the chunked resampler -/

lemma slices_flatten_aux (l : List ℚ) (s : ℕ) : ∀ k,
    ((List.range k).map (fun i => (l.drop (i * s)).take s)).flatten = l.take (k * s) := by
  intro k
  induction k with
  | zero => simp
  | succ k ih =>
    rw [List.range_succ, List.map_append, List.flatten_append]
    simp only [List.map_cons, List.map_nil, List.flatten_cons, List.flatten_nil,
      List.append_nil]
    rw [ih, Nat.succ_mul, List.take_add]

lemma parallel_input_slices_flatten (l : List ℚ) (N : ℕ) (hN : 0 < N) :
    (parallel_input_slices l N).flatten = l := by
  unfold parallel_input_slices
  obtain ⟨M, rfl⟩ : ∃ M, N = M + 1 := ⟨N - 1, by omega⟩
  rw [List.range_succ, List.map_append, List.flatten_append]
  have hmap : (List.range M).map (fun i =>
      if i = M + 1 - 1 then l.drop (i * (l.length / (M + 1)))
      else (l.drop (i * (l.length / (M + 1)))).take (l.length / (M + 1))) =
      (List.range M).map (fun i =>
        (l.drop (i * (l.length / (M + 1)))).take (l.length / (M + 1))) := by
    apply List.map_congr_left
    intro i hi
    have : i < M := List.mem_range.1 hi
    rw [if_neg (by omega)]
  rw [hmap, slices_flatten_aux]
  simp only [List.map_cons, List.map_nil, List.flatten_cons, List.flatten_nil,
    List.append_nil, if_pos (by omega : M = M + 1 - 1)]
  exact List.take_append_drop (M * (l.length / (M + 1))) l

/-! ### Claim theorems -/

/-- Claim C2: in every successful `shenidam_get_audio_range` call (with an
inverse transform honouring its length contract), the wraparound
correction subtracts `commonSize` from the peak index exactly when the
peak index is strictly greater than `commonSize - queryWorkingLength / 2`;
in that case the corrected index is negative. -/
theorem claim_C2_wraparound (C : Collaborators) (impl : ShenidamState)
    (fmt : Option AudioFormat) (s : List ℚ) (n : ℕ) (rate : ℚ) (t : QueryTrace)
    (hifft : ∀ (f : List Cpx) (L : ℕ) (th : ℤ), (C.ifft f L th).length = L)
    (h : shenidam_get_audio_range_trace C impl fmt s n rate = .ok t) :
    (t.in_corrected = (t.peak : ℤ) - (t.common_size : ℤ) ↔
      t.common_size - t.num_samples_working / 2 < t.peak) ∧
    (t.common_size - t.num_samples_working / 2 < t.peak → t.in_corrected < 0) := by
  obtain ⟨b0, t0, hb, hc, h1, h2, ht⟩ := trace_ok_inv h
  subst ht
  set Q := query_core C impl b0 t0 n rate with hQ
  have hcs : Q.common_size =
      get_common_size (Q.num_samples_working + impl.base_num_samples) := by
    rw [hQ]
    rfl
  have hcs_pos : 0 < Q.common_size := by
    rw [hcs]
    exact get_common_size_pos _
  have hpeak : Q.peak = (find_peak (query_convolved C impl b0
      (query_working_track C impl (normalize C.sqrt t0) n rate).1
      Q.num_samples_working)).1 := by
    rw [hQ]
    rfl
  have hlen : (query_convolved C impl b0
      (query_working_track C impl (normalize C.sqrt t0) n rate).1
      Q.num_samples_working).length = Q.common_size := by
    rw [query_convolved_length C impl _ _ _ hifft, hcs]
  have hne : query_convolved C impl b0
      (query_working_track C impl (normalize C.sqrt t0) n rate).1
      Q.num_samples_working ≠ [] := by
    apply List.length_pos.1
    rw [hlen]
    exact hcs_pos
  have hpk_lt : Q.peak < Q.common_size := by
    rw [hpeak, ← hlen]
    exact find_peak_fst_lt_length _ hne
  have hic : Q.in_corrected =
      (if Q.common_size - Q.num_samples_working / 2 < Q.peak
        then (Q.peak : ℤ) - (Q.common_size : ℤ) else (Q.peak : ℤ)) := by
    rw [hQ]
    rfl
  constructor
  · constructor
    · intro he
      by_contra hcond
      rw [hic, if_neg hcond] at he
      omega
    · intro hcond
      rw [hic, if_pos hcond]
  · intro hcond
    rw [hic, if_pos hcond]
    omega

/-- Claim C2 witness: the wraparound behaviour at a concrete run in which
the peak lands at the last index (7 of 8) and the corrected offset is
negative. -/
theorem claim_C2_wraparound_witness :
    (∀ (f : List Cpx) (L : ℕ) (th : ℤ), (testC2.ifft f L th).length = L) ∧
    shenidam_get_audio_range_trace testC2 testS (some .single) [1, 1, -1, -1] 4 1 =
      .ok ⟨4, 8, 7, -1, -1, 4⟩ ∧
    (((⟨4, 8, 7, -1, -1, 4⟩ : QueryTrace).in_corrected =
        ((⟨4, 8, 7, -1, -1, 4⟩ : QueryTrace).peak : ℤ) -
        ((⟨4, 8, 7, -1, -1, 4⟩ : QueryTrace).common_size : ℤ) ↔
      (⟨4, 8, 7, -1, -1, 4⟩ : QueryTrace).common_size -
        (⟨4, 8, 7, -1, -1, 4⟩ : QueryTrace).num_samples_working / 2 <
        (⟨4, 8, 7, -1, -1, 4⟩ : QueryTrace).peak) ∧
     ((⟨4, 8, 7, -1, -1, 4⟩ : QueryTrace).common_size -
        (⟨4, 8, 7, -1, -1, 4⟩ : QueryTrace).num_samples_working / 2 <
        (⟨4, 8, 7, -1, -1, 4⟩ : QueryTrace).peak →
      (⟨4, 8, 7, -1, -1, 4⟩ : QueryTrace).in_corrected < 0)) :=
  ⟨testC2_ifft_length, run_tail_peak,
    claim_C2_wraparound testC2 testS (some .single) [1, 1, -1, -1] 4 1 _
      testC2_ifft_length run_tail_peak⟩

/-- Claim C3: the peak search scans the whole buffer and returns the index
of the maximum value, first occurrence winning on ties (for value lists in
the range of finite floats, which all exceed -DBL_MAX); and on an
all-equal buffer (as produced by a filter zeroing every bin) it returns
index 0 unconditionally. -/
theorem claim_C3_peak_search :
    (∀ l : List ℚ, l ≠ [] → (∀ x ∈ l, -DBL_MAX < x) →
      ∃ j, ∃ hj : j < l.length, (find_peak l).1 = j ∧
        (∀ k, ∀ hk : k < l.length, l.get ⟨k, hk⟩ ≤ l.get ⟨j, hj⟩) ∧
        (∀ k, ∀ hk : k < j, l.get ⟨k, lt_trans hk hj⟩ < l.get ⟨j, hj⟩)) ∧
    (∀ (n : ℕ) (c : ℚ), (find_peak (List.replicate n c)).1 = 0) := by
  constructor
  · intro l hne hall
    obtain ⟨x, hx⟩ := List.exists_mem_of_ne_nil l hne
    have hex : ∃ y ∈ l, -DBL_MAX < y := ⟨x, hx, hall x hx⟩
    obtain ⟨j, hj, he, hgt, hval, hfirst⟩ := find_peak_go_argmax l (-DBL_MAX) 0 0 hex
    refine ⟨j, hj, by simpa [find_peak] using he, ?_, hfirst⟩
    intro k hk
    have hle : l.get ⟨k, hk⟩ ≤ l.foldl max (-DBL_MAX) :=
      le_foldl_max_of_mem l _ _ (l.get_mem _ _)
    rw [hval, find_peak_go_snd]
    exact hle
  · intro n c
    match n with
    | 0 => rfl
    | n + 1 =>
      rw [List.replicate_succ]
      unfold find_peak
      by_cases h : -DBL_MAX < c
      · rw [show find_peak_go (c :: List.replicate n c) (-DBL_MAX) 0 0 =
            find_peak_go (List.replicate n c) c 1 0 from by simp [find_peak_go, h]]
        exact find_peak_go_fst_of_le _ c 1 0
          (fun x hx => le_of_eq (List.eq_of_mem_replicate hx))
      · rw [show find_peak_go (c :: List.replicate n c) (-DBL_MAX) 0 0 =
            find_peak_go (List.replicate n c) (-DBL_MAX) 1 0 from
            by simp [find_peak_go, h]]
        exact find_peak_go_fst_of_le _ (-DBL_MAX) 1 0
          (fun x hx => (List.eq_of_mem_replicate hx) ▸ not_lt.1 h)

/-- Claim C3 witness: on `[1, 5, 5, 2]` the peak search selects index 1
(the first of the two tied maxima), and on a constant buffer it selects
index 0. -/
theorem claim_C3_peak_search_witness :
    ([1, 5, 5, 2] : List ℚ) ≠ [] ∧
    (∀ x ∈ ([1, 5, 5, 2] : List ℚ), -DBL_MAX < x) ∧
    (∃ j, ∃ hj : j < ([1, 5, 5, 2] : List ℚ).length,
      (find_peak [1, 5, 5, 2]).1 = j ∧
      (∀ k, ∀ hk : k < ([1, 5, 5, 2] : List ℚ).length,
        ([1, 5, 5, 2] : List ℚ).get ⟨k, hk⟩ ≤ ([1, 5, 5, 2] : List ℚ).get ⟨j, hj⟩) ∧
      (∀ k, ∀ hk : k < j,
        ([1, 5, 5, 2] : List ℚ).get ⟨k, lt_trans hk hj⟩ <
          ([1, 5, 5, 2] : List ℚ).get ⟨j, hj⟩)) ∧
    (find_peak (List.replicate 3 (7 : ℚ))).1 = 0 := by
  have hne : ([1, 5, 5, 2] : List ℚ) ≠ [] := by simp
  have hall : ∀ x ∈ ([1, 5, 5, 2] : List ℚ), -DBL_MAX < x := by
    simp only [List.mem_cons, List.not_mem_nil, or_false]
    rintro x (rfl | rfl | rfl | rfl) <;> norm_num [DBL_MAX]
  exact ⟨hne, hall, claim_C3_peak_search.1 _ hne hall, claim_C3_peak_search.2 3 7⟩

/-- Claim C4: `get_common_size n` is the smallest power of two that is at
least `n` (for positive `n`), and in every successful query the padded
correlation length is `get_common_size` of (query working length + base
working length). -/
theorem claim_C4_common_size (n : ℕ) (hn : 0 < n) :
    ((∃ k, get_common_size n = 2 ^ k) ∧ n ≤ get_common_size n ∧
      ∀ j, n ≤ 2 ^ j → get_common_size n ≤ 2 ^ j) ∧
    (∀ (C : Collaborators) (impl : ShenidamState) (fmt : Option AudioFormat)
      (s : List ℚ) (ns : ℕ) (rate : ℚ) (t : QueryTrace),
      shenidam_get_audio_range_trace C impl fmt s ns rate = .ok t →
      t.common_size = get_common_size (t.num_samples_working + impl.base_num_samples)) := by
  refine ⟨get_common_size_spec n hn, ?_⟩
  intro C impl fmt s ns rate t h
  obtain ⟨b0, t0, hb, hc, h1, h2, ht⟩ := trace_ok_inv h
  subst ht
  rfl

/-- Claim C4 witness: `get_common_size 5 = 8` is the least power of two
at least 5, and a concrete successful query uses
`get_common_size (2 + 2) = 4`. -/
theorem claim_C4_common_size_witness :
    0 < 5 ∧
    ((∃ k, get_common_size 5 = 2 ^ k) ∧ 5 ≤ get_common_size 5 ∧
      ∀ j, 5 ≤ 2 ^ j → get_common_size 5 ≤ 2 ^ j) ∧
    (⟨2, 4, 0, 0, 0, 2⟩ : QueryTrace).common_size =
      get_common_size ((⟨2, 4, 0, 0, 0, 2⟩ : QueryTrace).num_samples_working +
        testS.base_num_samples) :=
  ⟨by norm_num, (claim_C4_common_size 5 (by norm_num)).1,
    (claim_C4_common_size 5 (by norm_num)).2 testC testS (some .single) [1, 1] 2 1 _
      run_basic⟩

/-- Claim C7: a second `shenidam_set_base_audio` call on a session with a
committed base returns `ALREADY_SET_BASE_SIGNAL` and returns the session
unchanged (same buffer, count and rates). -/
theorem claim_C7_double_commit (C : Collaborators) (impl : ShenidamState)
    (fmt : Option AudioFormat) (s : List ℚ) (n : ℕ) (rate : ℚ) (b : List ℚ)
    (h : impl.base = some b) :
    shenidam_set_base_audio C impl fmt s n rate = (.alreadySetBaseSignal, impl) := by
  unfold shenidam_set_base_audio
  rw [h]

/-- Claim C7 witness: concrete double commit. -/
theorem claim_C7_double_commit_witness :
    testS.base = some [1, 1] ∧
    shenidam_set_base_audio testC testS (some .single) [3, 3] 2 2 =
      (.alreadySetBaseSignal, testS) :=
  ⟨rfl, claim_C7_double_commit testC testS (some .single) [3, 3] 2 2 [1, 1] rfl⟩

/-- Claim C8: `shenidam_get_audio_range` checks, in order: no committed
base (`BASE_SIGNAL_NOT_SET`), non-positive sample rate
(`INVALID_ARGUMENT`), zero sample count (`INVALID_ARGUMENT`), and an
unrecognized format tag (`INVALID_ARGUMENT`); every such call fails
before the correlation pipeline and the embedding reads the session
without modifying it. -/
theorem claim_C8_query_guards (C : Collaborators) (impl : ShenidamState)
    (fmt : Option AudioFormat) (s : List ℚ) (n : ℕ) (rate : ℚ) :
    (impl.base = none →
      shenidam_get_audio_range C impl fmt s n rate = .error .baseSignalNotSet) ∧
    (impl.base ≠ none → rate ≤ 0 →
      shenidam_get_audio_range C impl fmt s n rate = .error .invalidArgument) ∧
    (impl.base ≠ none → ¬ rate ≤ 0 → n = 0 →
      shenidam_get_audio_range C impl fmt s n rate = .error .invalidArgument) ∧
    (impl.base ≠ none → ¬ rate ≤ 0 → n ≠ 0 → fmt = none →
      shenidam_get_audio_range C impl fmt s n rate = .error .invalidArgument) := by
  refine ⟨?_, ?_, ?_, ?_⟩
  · intro hb
    simp [shenidam_get_audio_range, shenidam_get_audio_range_trace, hb, Except.map]
  · intro hb h1
    obtain ⟨b0, hb0⟩ := Option.ne_none_iff_exists'.1 hb
    simp [shenidam_get_audio_range, shenidam_get_audio_range_trace, hb0, h1, Except.map]
  · intro hb h1 h2
    obtain ⟨b0, hb0⟩ := Option.ne_none_iff_exists'.1 hb
    simp [shenidam_get_audio_range, shenidam_get_audio_range_trace, hb0, h1, h2, Except.map]
  · intro hb h1 h2 hfmt
    obtain ⟨b0, hb0⟩ := Option.ne_none_iff_exists'.1 hb
    subst hfmt
    simp [shenidam_get_audio_range, shenidam_get_audio_range_trace, hb0, h1, h2,
      convert_to_samples, Except.map]

/-- Claim C8 witness: the four guard outcomes at concrete sessions and
arguments. -/
theorem claim_C8_query_guards_witness :
    shenidam_get_audio_range testC emptyS (some .single) [1] 1 1 =
      .error .baseSignalNotSet ∧
    shenidam_get_audio_range testC testS (some .single) [1] 1 (-1) =
      .error .invalidArgument ∧
    shenidam_get_audio_range testC testS (some .single) [] 0 1 =
      .error .invalidArgument ∧
    shenidam_get_audio_range testC testS none [1] 1 1 =
      .error .invalidArgument :=
  ⟨(claim_C8_query_guards testC emptyS (some .single) [1] 1 1).1 rfl,
    (claim_C8_query_guards testC testS (some .single) [1] 1 (-1)).2.1
      (by simp [testS]) (by norm_num),
    (claim_C8_query_guards testC testS (some .single) [] 0 1).2.2.1
      (by simp [testS]) (by norm_num) rfl,
    (claim_C8_query_guards testC testS none [1] 1 1).2.2.2
      (by simp [testS]) (by norm_num) (by norm_num) rfl⟩

/-- Claim C9 (amended): every successful call returns
`offset = round(in_corrected * baseOriginalRate / baseWorkingRate)` and
`length = round(queryWorkingLength * baseOriginalRate / baseWorkingRate)`;
and provided the rate ratio `baseOriginalRate / baseWorkingRate` is at
least 1/2, the returned length converted back to the working rate equals
the query working length within a rounding tolerance of 1. -/
theorem claim_C9_rescale (C : Collaborators) (impl : ShenidamState)
    (fmt : Option AudioFormat) (s : List ℚ) (n : ℕ) (rate : ℚ) (t : QueryTrace)
    (h : shenidam_get_audio_range_trace C impl fmt s n rate = .ok t) :
    (t.in_point = c_round ((t.in_corrected : ℚ) * impl.base_real_sample_rate /
        impl.base_sample_rate) ∧
      t.out_length = (c_round ((t.num_samples_working : ℚ) *
        impl.base_real_sample_rate / impl.base_sample_rate)).toNat) ∧
    (1/2 ≤ impl.base_real_sample_rate / impl.base_sample_rate →
      |(c_round ((t.out_length : ℚ) * impl.base_sample_rate /
          impl.base_real_sample_rate) : ℚ) - (t.num_samples_working : ℚ)| ≤ 1) := by
  obtain ⟨b0, t0, hb, hc, h1, h2, ht⟩ := trace_ok_inv h
  subst ht
  refine ⟨⟨rfl, rfl⟩, ?_⟩
  intro hr
  exact c_round_back_tolerance _ _ _ hr

/-- Claim C9 counterexample: with working rate 10 and original base rate 1
(ratio 1/10), a successful query of 4 working samples returns length 0;
converted back to the working rate this is 0, which differs from the query
working length 4 by more than the claimed tolerance of 1. -/
theorem claim_C9_counterexample :
    shenidam_get_audio_range_trace testC testS9 (some .single) [1, 1, -1, -1] 4 10 =
      .ok ⟨4, 8, 0, 0, 0, 0⟩ ∧
    ¬ |(c_round ((((⟨4, 8, 0, 0, 0, 0⟩ : QueryTrace).out_length : ℕ) : ℚ) *
        testS9.base_sample_rate / testS9.base_real_sample_rate) : ℚ) -
        (((⟨4, 8, 0, 0, 0, 0⟩ : QueryTrace).num_samples_working : ℕ) : ℚ)| ≤ 1 := by
  refine ⟨run_low_rate, ?_⟩
  have h0 : c_round ((((0 : ℕ) : ℚ)) * testS9.base_sample_rate /
      testS9.base_real_sample_rate) = 0 := by
    norm_num [c_round, testS9, Int.floor_eq_iff]
  intro habs
  rw [show (((⟨4, 8, 0, 0, 0, 0⟩ : QueryTrace).out_length : ℕ) : ℚ) =
    (((0 : ℕ) : ℚ)) from rfl] at habs
  rw [h0] at habs
  norm_num at habs

/-- Claim C9 witness: a successful run with rate ratio 1 in which the
round-trip tolerance holds. -/
theorem claim_C9_rescale_witness :
    shenidam_get_audio_range_trace testC testS (some .single) [1, 1] 2 1 =
      .ok ⟨2, 4, 0, 0, 0, 2⟩ ∧
    1/2 ≤ testS.base_real_sample_rate / testS.base_sample_rate ∧
    |(c_round (((2 : ℕ) : ℚ) * testS.base_sample_rate /
        testS.base_real_sample_rate) : ℚ) - ((2 : ℕ) : ℚ)| ≤ 1 :=
  ⟨run_basic, by norm_num [testS],
    (claim_C9_rescale testC testS (some .single) [1, 1] 2 1 _ run_basic).2
      (by norm_num [testS])⟩

/-- Claim C6 (code bug): `shenidam_set_base_audio` performs no validation
of its sample-rate argument: with the non-positive rate -1 it runs the
whole pipeline and reports success instead of the InvalidArgument the
specification requires. -/
theorem claim_C6_no_rate_check :
    ((-1 : ℚ) ≤ 0) ∧
    (shenidam_set_base_audio testC emptyS (some .single) [1, 1] 2 (-1)).1 =
      ResultCode.success := by
  refine ⟨by norm_num, ?_⟩
  norm_num [shenidam_set_base_audio, convert_to_samples, normalize, c_round,
    testC, emptyS]

/-- Claim C10 (code bug): the sentinel-scan loop condition of
`shenidam_add_frequential_filter` as written tests the iterator pointer
(`(cur++) != NULL`) rather than the loaded element, so it holds at every
address the iterator can reach from a valid (non-NULL) start: the scan
never terminates and no append completes. -/
theorem claim_C10_scan_guard (start k : ℕ) (h : 0 < start) :
    filter_scan_test (start + k) = true := by
  simp only [filter_scan_test, decide_eq_true_eq]
  omega

/-- Claim C10 witness: the guard holds at a concrete iterator position. -/
theorem claim_C10_scan_guard_witness :
    0 < 1 ∧ filter_scan_test (1 + 41) = true :=
  ⟨by norm_num, claim_C10_scan_guard 1 41 (by norm_num)⟩

/-- Claim C5 (supporting theorem): the input partition of the chunked
resampler is exactly `num_threads` contiguous, non-overlapping chunks
whose in-order concatenation is the input (the last chunk absorbing the
remainder), and the intended gather returns the concatenation of the
per-chunk outputs with total count the sum of the per-chunk counts. -/
theorem claim_C5_partition (rs : List ℚ → ℚ → List ℚ) (l : List ℚ) (N : ℕ)
    (ratio : ℚ) (hN : 1 < N) :
    (parallel_input_slices l N).flatten = l ∧
    (parallel_input_slices l N).length = N ∧
    (resample_parallel_intended rs l N ratio).length =
      ((parallel_input_slices l N).map (fun c => (rs c ratio).length)).sum := by
  refine ⟨parallel_input_slices_flatten l N (by omega), ?_, ?_⟩
  · unfold parallel_input_slices
    simp
  · unfold resample_parallel_intended
    rw [List.length_flatten, List.map_map]
    rfl

/-- Claim C5 witness: concrete partition of five samples over two
workers. -/
theorem claim_C5_partition_witness :
    (1 : ℕ) < 2 ∧
    (parallel_input_slices [1, 2, 3, 4, 5] 2).flatten = [1, 2, 3, 4, 5] ∧
    (parallel_input_slices [1, 2, 3, 4, 5] 2).length = 2 ∧
    (resample_parallel_intended (fun c _ => c) [1, 2, 3, 4, 5] 2 1).length =
      ((parallel_input_slices [1, 2, 3, 4, 5] 2).map
        (fun c => ((fun c _ => c) c (1 : ℚ) : List ℚ).length)).sum :=
  ⟨by norm_num, claim_C5_partition (fun c _ => c) [1, 2, 3, 4, 5] 2 1 (by norm_num)⟩

/-- Claim C1 (code bug): on the buffer `[-2, -2, 2, 2]` the code divides
by `sqrt(sum of squares - squared mean) = 4` (the `/n` of the variance is
missing), yielding `[-1/2, -1/2, 1/2, 1/2]`, whereas dividing by the true
standard deviation 2, as the specification states, yields
`[-1, -1, 1, 1]`. -/
theorem claim_C1_normalize_divisor :
    normalize Real.sqrt [(-2 : ℝ), -2, 2, 2] = [-(1/2), -(1/2), 1/2, 1/2] ∧
    normalize_spec Real.sqrt [(-2 : ℝ), -2, 2, 2] = [-1, -1, 1, 1] ∧
    normalize Real.sqrt [(-2 : ℝ), -2, 2, 2] ≠
      normalize_spec Real.sqrt [(-2 : ℝ), -2, 2, 2] := by
  have h16 : Real.sqrt 16 = 4 := by
    rw [show (16 : ℝ) = 4 ^ 2 by norm_num]
    exact Real.sqrt_sq (by norm_num)
  have h4 : Real.sqrt 4 = 2 := by
    rw [show (4 : ℝ) = 2 ^ 2 by norm_num]
    exact Real.sqrt_sq (by norm_num)
  have e1 : normalize Real.sqrt [(-2 : ℝ), -2, 2, 2] = [-(1/2), -(1/2), 1/2, 1/2] := by
    unfold normalize
    norm_num
    rw [h16]
    norm_num
  have e2 : normalize_spec Real.sqrt [(-2 : ℝ), -2, 2, 2] = [-1, -1, 1, 1] := by
    unfold normalize_spec
    norm_num
    rw [h4]
    norm_num
  refine ⟨e1, e2, ?_⟩
  rw [e1, e2]
  norm_num [List.cons.injEq]

end Shenidam
